import Mathlib

/-!
Verification of the NPSS ranking/allocation engine (`rankStudents` and its
helpers).  The TypeScript source is embedded shallowly: JS objects become
structures, `Record<string, number>` maps become functions threaded as
explicit state, and the (spec-stable) `Array.prototype.sort` becomes the
stable `List.insertionSort` over the comparator's preorder.
-/

namespace NPSS

/-- The five subject scores of a student (the shape destructured by
`calculateTotal`).  JS numbers holding exam scores are modelled as `Int`. -/
structure Scores where
  math : Int
  science : Int
  thai : Int
  english : Int
  social : Int
deriving DecidableEq, Repr

/-- An input student record: identity/display fields, subject scores and the
ordered preference list (`preferredStreams`). -/
structure Student where
  id : String
  title : String
  firstName : String
  lastName : String
  scores : Scores
  preferredStreams : List String
deriving DecidableEq, Repr

/-- A track definition (`StudyPlan`): name and quota (capacity). -/
structure StudyPlan where
  name : String
  quota : Int
deriving DecidableEq, Repr

/-- A processed/ranked/allocated student: the student fields plus
`totalScore`, `rank` and `qualifiedStream` (`null` becomes `none`). -/
structure RankedStudent where
  id : String
  title : String
  firstName : String
  lastName : String
  scores : Scores
  preferredStreams : List String
  totalScore : Int
  rank : Nat
  qualifiedStream : Option String
deriving DecidableEq, Repr

/-- `calculateTotal`: destructures the five subject scores and returns their
sum.  (The source's optional `subjects` parameter is ignored by its body.) -/
def calculateTotal (student : Student) : Int :=
  student.scores.math + student.scores.science + student.scores.thai +
    student.scores.english + student.scores.social

/-- `tieBreaker`: negative when `a` should come before `b`.  The source takes
`Student`-shaped values; it is applied to processed records, which carry the
same `scores` field, so it is stated on `RankedStudent` here. -/
def tieBreaker (a b : RankedStudent) : Int :=
  if a.scores.science ≠ b.scores.science then b.scores.science - a.scores.science
  else if a.scores.math ≠ b.scores.math then b.scores.math - a.scores.math
  else if a.scores.english ≠ b.scores.english then b.scores.english - a.scores.english
  else if a.scores.thai ≠ b.scores.thai then b.scores.thai - a.scores.thai
  else b.scores.social - a.scores.social

/-- The comparator passed to `processed.sort`. -/
def sortCmp (a b : RankedStudent) : Int :=
  if b.totalScore ≠ a.totalScore then b.totalScore - a.totalScore
  else tieBreaker a b

/-- `a` may come before `b` under the sort comparator (comparator value ≤ 0).
`Array.prototype.sort` with a consistent comparator produces the unique
stable sorted permutation, i.e. a stable sort with respect to this
relation. -/
def sortLE (a b : RankedStudent) : Prop :=
  sortCmp a b ≤ 0

instance : DecidableRel sortLE := fun a b =>
  inferInstanceAs (Decidable (sortCmp a b ≤ 0))

/-- Step 1: `students.map(s => ({ ...s, totalScore: calculateTotal(s),
rank: 0, qualifiedStream: null }))`. -/
def toProcessed (s : Student) : RankedStudent :=
  { id := s.id, title := s.title, firstName := s.firstName,
    lastName := s.lastName, scores := s.scores,
    preferredStreams := s.preferredStreams,
    totalScore := calculateTotal s, rank := 0, qualifiedStream := none }

/-- Step 3: `processed.map((s, index) => ({ ...s, rank: index + 1 }))`,
with `i` the number of elements already passed. -/
def assignRanks : List RankedStudent → Nat → List RankedStudent
  | [], _ => []
  | s :: rest, i => { s with rank := i + 1 } :: assignRanks rest (i + 1)

/-- The `planQuotas` record built by
`plans.forEach(p => planQuotas[p.name] = p.quota)`: sequential assignment,
so a later entry with the same name overwrites an earlier one (the last one
wins), and a name never assigned is `undefined` (`none`). -/
def planQuotas : List StudyPlan → String → Option Int
  | [], _ => none
  | p :: rest, name =>
    match planQuotas rest name with
    | some q => some q
    | none => if name = p.name then some p.quota else none

/-- The `for (const planName of student.preferredStreams)` loop: return the
first preference that exists in `planQuotas` and whose current usage is
strictly below its quota. -/
def firstAvailable (plans : List StudyPlan) (usage : String → Nat) :
    List String → Option String
  | [] => none
  | name :: rest =>
    match planQuotas plans name with
    | some q =>
      if (usage name : Int) < q then some name
      else firstAvailable plans usage rest
    | none => firstAvailable plans usage rest

/-- Step 4: `processed.map(student => ...)` with the shared mutable
`quotaUsage` record threaded as explicit state.  On an allocation the
usage counter of the assigned name is incremented before the next student
is processed. -/
def allocate (plans : List StudyPlan) :
    List RankedStudent → (String → Nat) → List RankedStudent
  | [], _ => []
  | s :: rest, usage =>
    match firstAvailable plans usage s.preferredStreams with
    | some name =>
      { s with qualifiedStream := some name } ::
        allocate plans rest (fun n => if n = name then usage n + 1 else usage n)
    | none => { s with qualifiedStream := none } :: allocate plans rest usage

/-- `rankStudents`: totals, global stable sort, dense 1-based ranks, then
waterfall allocation.  `quotaUsage` is initialised to `0` on exactly the
keys of `planQuotas`, and is only ever read behind the
`planQuotas[planName] !== undefined` guard, so the all-zero function is its
faithful model. -/
def rankStudents (students : List Student) (plans : List StudyPlan) :
    List RankedStudent :=
  let processed := students.map toProcessed
  let sorted := List.insertionSort sortLE processed
  let ranked := assignRanks sorted 0
  allocate plans ranked (fun _ => 0)

/-- The comparator key of a record: total score then the five tie-break
subjects in the source's fixed priority order. -/
def keyOf (s : RankedStudent) : Int × Int × Int × Int × Int × Int :=
  (s.totalScore, s.scores.science, s.scores.math, s.scores.english,
    s.scores.thai, s.scores.social)

/-- Modelled from the spec: lexicographic "may come before" on keys —
`totalScore` descending, then science, math, english, thai, social, each
descending, until one key differs. -/
def keyLE (x y : Int × Int × Int × Int × Int × Int) : Prop :=
  x.1 > y.1 ∨ (x.1 = y.1 ∧
    (x.2.1 > y.2.1 ∨ (x.2.1 = y.2.1 ∧
      (x.2.2.1 > y.2.2.1 ∨ (x.2.2.1 = y.2.2.1 ∧
        (x.2.2.2.1 > y.2.2.2.1 ∨ (x.2.2.2.1 = y.2.2.2.1 ∧
          (x.2.2.2.2.1 > y.2.2.2.2.1 ∨ (x.2.2.2.2.1 = y.2.2.2.2.1 ∧
            x.2.2.2.2.2 ≥ y.2.2.2.2.2)))))))))

/-- Modelled from the spec: the sort order described in §4.2 of the spec. -/
def specLE (a b : RankedStudent) : Prop :=
  keyLE (keyOf a) (keyOf b)

instance : DecidableRel keyLE := fun x y => by
  unfold keyLE
  infer_instance

instance : DecidableRel specLE := fun a b => by
  unfold specLE
  infer_instance

/-- Forget the derived annotations, recovering the input-student fields. -/
def strip (s : RankedStudent) : Student :=
  { id := s.id, title := s.title, firstName := s.firstName,
    lastName := s.lastName, scores := s.scores,
    preferredStreams := s.preferredStreams }

/-- Erase only the `qualifiedStream` annotation. -/
def clearQS (s : RankedStudent) : RankedStudent :=
  { s with qualifiedStream := none }

/-- Overwrite the `qualifiedStream` annotation. -/
def setQS (s : RankedStudent) (o : Option String) : RankedStudent :=
  { s with qualifiedStream := o }

/-- Number of students in `l` allocated to track `name`. -/
def countAssigned (name : String) (l : List RankedStudent) : Nat :=
  l.countP (fun s => decide (s.qualifiedStream = some name))

/-- The quota-usage state right before the student at position `k` of the
output is processed: how many of the first `k` output students are assigned
to each name. -/
def usageAt (students : List Student) (plans : List StudyPlan) (k : Nat) :
    String → Nat :=
  fun n => countAssigned n ((rankStudents students plans).take k)

/-- A preference `x` is eligible under usage state `u`: it names a
configured plan whose usage is still below its quota. -/
def eligible (plans : List StudyPlan) (u : String → Nat) (x : String) : Prop :=
  ∃ q, planQuotas plans x = some q ∧ (u x : Int) < q

/-! ### Order lemmas: the comparator is the spec's lexicographic order -/

theorem sortLE_iff_specLE (a b : RankedStudent) : sortLE a b ↔ specLE a b := by
  unfold sortLE sortCmp tieBreaker specLE keyLE keyOf
  dsimp only
  split_ifs <;> omega

theorem specLE_total (a b : RankedStudent) : specLE a b ∨ specLE b a := by
  unfold specLE keyLE keyOf
  dsimp only
  omega

theorem specLE_trans (a b c : RankedStudent) :
    specLE a b → specLE b c → specLE a c := by
  unfold specLE keyLE keyOf
  dsimp only
  omega

instance : IsTotal RankedStudent sortLE :=
  ⟨fun a b => by
    rw [sortLE_iff_specLE, sortLE_iff_specLE]
    exact specLE_total a b⟩

instance : IsTrans RankedStudent sortLE :=
  ⟨fun a b c hab hbc => by
    rw [sortLE_iff_specLE] at hab hbc ⊢
    exact specLE_trans a b c hab hbc⟩

/-- Records with equal scores and totals are tied under the comparator. -/
theorem sortLE_of_key_eq {a b : RankedStudent} (h : keyOf a = keyOf b) :
    sortLE a b := by
  unfold keyOf at h
  rw [sortLE_iff_specLE]
  unfold specLE keyLE keyOf
  dsimp only
  simp only [Prod.mk.injEq] at h
  omega

/-! ### Preservation lemmas for the pipeline stages -/

theorem assignRanks_length (l : List RankedStudent) (i : Nat) :
    (assignRanks l i).length = l.length := by
  induction l generalizing i with
  | nil => rfl
  | cons s rest ih => simp [assignRanks, ih]

theorem allocate_length (plans : List StudyPlan) (l : List RankedStudent)
    (u : String → Nat) : (allocate plans l u).length = l.length := by
  induction l generalizing u with
  | nil => rfl
  | cons s rest ih =>
    unfold allocate
    cases firstAvailable plans u s.preferredStreams <;> simp [ih]

theorem length_rankStudents (students : List Student) (plans : List StudyPlan) :
    (rankStudents students plans).length = students.length := by
  unfold rankStudents
  rw [allocate_length, assignRanks_length, List.length_insertionSort,
    List.length_map]

theorem map_keyOf_assignRanks (l : List RankedStudent) (i : Nat) :
    (assignRanks l i).map keyOf = l.map keyOf := by
  induction l generalizing i with
  | nil => rfl
  | cons s rest ih => simp [assignRanks, ih, keyOf]

theorem map_keyOf_allocate (plans : List StudyPlan) (l : List RankedStudent)
    (u : String → Nat) : (allocate plans l u).map keyOf = l.map keyOf := by
  induction l generalizing u with
  | nil => rfl
  | cons s rest ih =>
    unfold allocate
    cases firstAvailable plans u s.preferredStreams <;> simp [ih, keyOf]

theorem map_strip_assignRanks (l : List RankedStudent) (i : Nat) :
    (assignRanks l i).map strip = l.map strip := by
  induction l generalizing i with
  | nil => rfl
  | cons s rest ih => simp [assignRanks, ih, strip]

theorem map_strip_allocate (plans : List StudyPlan) (l : List RankedStudent)
    (u : String → Nat) : (allocate plans l u).map strip = l.map strip := by
  induction l generalizing u with
  | nil => rfl
  | cons s rest ih =>
    unfold allocate
    cases firstAvailable plans u s.preferredStreams <;> simp [ih, strip]

theorem map_rank_assignRanks (l : List RankedStudent) (i : Nat) :
    (assignRanks l i).map (fun s => s.rank) = List.range' (i + 1) l.length := by
  induction l generalizing i with
  | nil => rfl
  | cons s rest ih => simp [assignRanks, ih, List.range'_succ]

theorem map_rank_allocate (plans : List StudyPlan) (l : List RankedStudent)
    (u : String → Nat) :
    (allocate plans l u).map (fun s => s.rank) = l.map (fun s => s.rank) := by
  induction l generalizing u with
  | nil => rfl
  | cons s rest ih =>
    unfold allocate
    cases firstAvailable plans u s.preferredStreams <;> simp [ih]

/-! ### Unfolding equations for the allocation pass -/

theorem allocate_cons_some (plans : List StudyPlan) (s : RankedStudent)
    (rest : List RankedStudent) (u : String → Nat) (name : String)
    (hfa : firstAvailable plans u s.preferredStreams = some name) :
    allocate plans (s :: rest) u =
      { s with qualifiedStream := some name } ::
        allocate plans rest (fun n => if n = name then u n + 1 else u n) := by
  simp only [allocate, hfa]

theorem allocate_cons_none (plans : List StudyPlan) (s : RankedStudent)
    (rest : List RankedStudent) (u : String → Nat)
    (hfa : firstAvailable plans u s.preferredStreams = none) :
    allocate plans (s :: rest) u =
      { s with qualifiedStream := none } :: allocate plans rest u := by
  simp only [allocate, hfa]

theorem firstAvailable_cons_some (plans : List StudyPlan) (u : String → Nat)
    (name : String) (rest : List String) (q : Int)
    (hq : planQuotas plans name = some q) :
    firstAvailable plans u (name :: rest) =
      if (u name : Int) < q then some name
      else firstAvailable plans u rest := by
  simp only [firstAvailable, hq]

theorem firstAvailable_cons_none (plans : List StudyPlan) (u : String → Nat)
    (name : String) (rest : List String)
    (hq : planQuotas plans name = none) :
    firstAvailable plans u (name :: rest) = firstAvailable plans u rest := by
  simp only [firstAvailable, hq]

/-! ### Positional characterization of the allocation pass -/

/-- Element `k` of the allocation output is element `k` of the input with
`qualifiedStream` overwritten by the loop's result, evaluated in the usage
state obtained from the first `k` output elements. -/
theorem allocate_getElem? (plans : List StudyPlan) (l : List RankedStudent)
    (u : String → Nat) (k : Nat) :
    (allocate plans l u)[k]? = (l[k]?).map (fun s =>
      setQS s (firstAvailable plans
        (fun n => u n + countAssigned n ((allocate plans l u).take k))
        s.preferredStreams)) := by
  induction l generalizing u k with
  | nil => simp [allocate]
  | cons s rest ih =>
    cases k with
    | zero =>
      have hu : (fun n =>
          u n + countAssigned n ((allocate plans (s :: rest) u).take 0)) = u := by
        funext n; simp [countAssigned]
      rw [hu]
      cases hfa : firstAvailable plans u s.preferredStreams with
      | some name =>
        rw [allocate_cons_some plans s rest u name hfa]
        simp [setQS, hfa]
      | none =>
        rw [allocate_cons_none plans s rest u hfa]
        simp [setQS, hfa]
    | succ k =>
      cases hfa : firstAvailable plans u s.preferredStreams with
      | some name =>
        rw [allocate_cons_some plans s rest u name hfa]
        simp only [List.getElem?_cons_succ, List.take_succ_cons]
        rw [ih]
        have hu : (fun n => u n +
            countAssigned n ({ s with qualifiedStream := some name } ::
              (allocate plans rest
                (fun n => if n = name then u n + 1 else u n)).take k)) =
            (fun n => (if n = name then u n + 1 else u n) +
              countAssigned n ((allocate plans rest
                (fun n => if n = name then u n + 1 else u n)).take k)) := by
          funext n
          simp only [countAssigned, List.countP_cons, decide_eq_true_eq,
            Option.some.injEq]
          by_cases h : name = n
          · subst h
            rw [if_pos rfl, if_pos rfl]
            omega
          · rw [if_neg h, if_neg (fun hh => h hh.symm)]
            omega
        rw [hu]
      | none =>
        rw [allocate_cons_none plans s rest u hfa]
        simp only [List.getElem?_cons_succ, List.take_succ_cons]
        rw [ih]
        have hu : (fun n => u n +
            countAssigned n ({ s with qualifiedStream := none } ::
              (allocate plans rest u).take k)) =
            (fun n => u n +
              countAssigned n ((allocate plans rest u).take k)) := by
          funext n
          simp [countAssigned, List.countP_cons]
        rw [hu]

/-! ### The preference-scanning loop -/

/-- A successful scan returns the first eligible preference: the list splits
as `pre ++ t :: post` with `t` eligible and everything before it not. -/
theorem firstAvailable_some (plans : List StudyPlan) (u : String → Nat)
    (prefs : List String) (t : String)
    (h : firstAvailable plans u prefs = some t) :
    ∃ pre post, prefs = pre ++ t :: post ∧ eligible plans u t ∧
      ∀ x ∈ pre, ¬ eligible plans u x := by
  induction prefs with
  | nil => simp [firstAvailable] at h
  | cons name rest ih =>
    cases hq : planQuotas plans name with
    | some q =>
      rw [firstAvailable_cons_some plans u name rest q hq] at h
      by_cases hlt : (u name : Int) < q
      · rw [if_pos hlt] at h
        obtain rfl : name = t := by simpa using h
        exact ⟨[], rest, rfl, ⟨q, hq, hlt⟩, by simp⟩
      · rw [if_neg hlt] at h
        obtain ⟨pre, post, hsplit, helig, hpre⟩ := ih h
        refine ⟨name :: pre, post, by simp [hsplit], helig, ?_⟩
        intro x hx
        rcases List.mem_cons.mp hx with rfl | hx
        · rintro ⟨q', hq', hlt'⟩
          rw [hq] at hq'
          exact hlt (by simpa using Option.some.inj hq' ▸ hlt')
        · exact hpre x hx
    | none =>
      rw [firstAvailable_cons_none plans u name rest hq] at h
      obtain ⟨pre, post, hsplit, helig, hpre⟩ := ih h
      refine ⟨name :: pre, post, by simp [hsplit], helig, ?_⟩
      intro x hx
      rcases List.mem_cons.mp hx with rfl | hx
      · rintro ⟨q', hq', _⟩
        rw [hq] at hq'
        exact Option.noConfusion hq'
      · exact hpre x hx

theorem firstAvailable_mem (plans : List StudyPlan) (u : String → Nat)
    (prefs : List String) (t : String)
    (h : firstAvailable plans u prefs = some t) : t ∈ prefs := by
  obtain ⟨pre, post, hsplit, -, -⟩ := firstAvailable_some plans u prefs t h
  simp [hsplit]

theorem firstAvailable_eligible (plans : List StudyPlan) (u : String → Nat)
    (prefs : List String) (t : String)
    (h : firstAvailable plans u prefs = some t) : eligible plans u t :=
  (firstAvailable_some plans u prefs t h).choose_spec.choose_spec.2.1

theorem firstAvailable_none (plans : List StudyPlan) (u : String → Nat)
    (prefs : List String) (h : ∀ x ∈ prefs, ¬ eligible plans u x) :
    firstAvailable plans u prefs = none := by
  induction prefs with
  | nil => rfl
  | cons name rest ih =>
    have hrest : firstAvailable plans u rest = none :=
      ih fun x hx => h x (List.mem_cons_of_mem name hx)
    cases hq : planQuotas plans name with
    | some q =>
      have hge : ¬ (u name : Int) < q := fun hlt =>
        h name (List.mem_cons_self name rest) ⟨q, hq, hlt⟩
      rw [firstAvailable_cons_some plans u name rest q hq, if_neg hge]
      exact hrest
    | none =>
      rw [firstAvailable_cons_none plans u name rest hq]
      exact hrest

theorem firstAvailable_head (plans : List StudyPlan) (u : String → Nat)
    (t : String) (rest : List String) (q : Int)
    (hq : planQuotas plans t = some q) (hlt : (u t : Int) < q) :
    firstAvailable plans u (t :: rest) = some t := by
  rw [firstAvailable_cons_some plans u t rest q hq, if_pos hlt]

/-! ### The capacity counting bound -/

/-- Allocation never hands out more of name `n` than the gap between its
quota (per `planQuotas`) and the usage already recorded on entry. -/
theorem countAssigned_allocate_le (plans : List StudyPlan) (n : String)
    (q : Int) (hq : planQuotas plans n = some q) (l : List RankedStudent)
    (u : String → Nat) :
    (countAssigned n (allocate plans l u) : Int) ≤ max (q - u n) 0 := by
  induction l generalizing u with
  | nil => simp [allocate, countAssigned]
  | cons s rest ih =>
    cases hfa : firstAvailable plans u s.preferredStreams with
    | some name =>
      rw [allocate_cons_some plans s rest u name hfa]
      have hrec := ih (fun m => if m = name then u m + 1 else u m)
      by_cases hn : name = n
      · subst hn
        obtain ⟨q', hq', hlt⟩ := firstAvailable_eligible plans u
          s.preferredStreams name hfa
        rw [hq] at hq'
        obtain rfl : q = q' := Option.some.inj hq'
        rw [if_pos rfl] at hrec
        simp only [countAssigned, List.countP_cons, decide_eq_true_eq,
          Option.some.injEq, if_pos rfl] at hrec ⊢
        push_cast at hrec ⊢
        omega
      · rw [if_neg (fun hh => hn hh.symm)] at hrec
        simp only [countAssigned, List.countP_cons, decide_eq_true_eq,
          Option.some.injEq, if_neg hn] at hrec ⊢
        push_cast at hrec ⊢
        omega
    | none =>
      rw [allocate_cons_none plans s rest u hfa]
      have hrec := ih u
      simp only [countAssigned, List.countP_cons, decide_eq_true_eq] at hrec ⊢
      push_cast at hrec ⊢
      omega

/-! ### Positions and ranks in the pipeline output -/

theorem rankStudents_eq (students : List Student) (plans : List StudyPlan) :
    rankStudents students plans =
      allocate plans
        (assignRanks (List.insertionSort sortLE (students.map toProcessed)) 0)
        (fun _ => 0) := rfl

theorem assignRanks_getElem? (l : List RankedStudent) (i k : Nat) :
    (assignRanks l i)[k]? = (l[k]?).map (fun s => { s with rank := i + k + 1 }) := by
  induction l generalizing i k with
  | nil => simp [assignRanks]
  | cons s rest ih =>
    cases k with
    | zero => simp [assignRanks]
    | succ k =>
      simp only [assignRanks, List.getElem?_cons_succ]
      rw [ih (i + 1) k]
      rw [show i + 1 + k + 1 = i + (k + 1) + 1 by omega]

theorem map_rank_rankStudents (students : List Student) (plans : List StudyPlan) :
    (rankStudents students plans).map (fun s => s.rank) =
      List.range' 1 students.length := by
  rw [rankStudents_eq, map_rank_allocate, map_rank_assignRanks,
    List.length_insertionSort, List.length_map]

/-- Every output position carries its 1-based index as `rank`. -/
theorem rank_rankStudents (students : List Student) (plans : List StudyPlan)
    (k : Nat) (s : RankedStudent)
    (h : (rankStudents students plans)[k]? = some s) : s.rank = k + 1 := by
  have hk : k < students.length := by
    have := List.getElem?_eq_some_iff.mp h
    rw [← length_rankStudents students plans]
    exact this.choose
  have hmap := congrArg (fun l => l[k]?) (map_rank_rankStudents students plans)
  simp only [List.getElem?_map, h, Option.map_some] at hmap
  rw [List.getElem?_range' 1 1 hk] at hmap
  have h2 := Option.some.inj hmap
  dsimp only at h2
  omega

/-! ### The quota map -/

/-- A name absent from the plan list is absent from the quota record. -/
theorem planQuotas_not_mem (plans : List StudyPlan) (n : String)
    (h : ∀ x ∈ plans, n ≠ x.name) : planQuotas plans n = none := by
  induction plans with
  | nil => rfl
  | cons p rest ih =>
    have hrest := ih fun x hx => h x (List.mem_cons_of_mem p hx)
    simp [planQuotas, hrest, h p (List.mem_cons_self p rest)]

/-- Sequential record assignment means the last entry with a name wins. -/
theorem planQuotas_eq_find_reverse (plans : List StudyPlan) (n : String) :
    planQuotas plans n =
      (plans.reverse.find? (fun p => p.name == n)).map StudyPlan.quota := by
  induction plans with
  | nil => rfl
  | cons p rest ih =>
    simp only [planQuotas, ih, List.reverse_cons, List.find?_append]
    cases hfind : rest.reverse.find? (fun p => p.name == n) with
    | some r => simp
    | none =>
      simp only [Option.map_none, List.find?_singleton, Option.none_or]
      by_cases hp : p.name = n
      · simp [hp]
      · have hne : ¬ n = p.name := fun hh => hp hh.symm
        simp [hp, hne]

/-- With pairwise-distinct names, each plan's own quota is its entry. -/
theorem planQuotas_of_nodup (plans : List StudyPlan)
    (hnd : plans.Pairwise (fun p q => p.name ≠ q.name)) (p : StudyPlan)
    (hp : p ∈ plans) : planQuotas plans p.name = some p.quota := by
  induction plans with
  | nil => cases hp
  | cons r rest ih =>
    rcases List.mem_cons.mp hp with rfl | hp
    · have hnone : planQuotas rest p.name = none :=
        planQuotas_not_mem rest p.name fun x hx =>
          (List.pairwise_cons.mp hnd).1 x hx
      simp [planQuotas, hnone]
    · have hsome := ih (List.Pairwise.of_cons hnd) hp
      simp [planQuotas, hsome]

/-- Combined positional characterization of the whole pipeline: position `k`
of the output is position `k` of the stable sort, annotated with rank `k + 1`
and the allocation decision taken in the usage state `usageAt … k`. -/
theorem rankStudents_getElem? (students : List Student) (plans : List StudyPlan)
    (k : Nat) :
    (rankStudents students plans)[k]? =
      ((List.insertionSort sortLE (students.map toProcessed))[k]?).map
        (fun s => setQS { s with rank := k + 1 }
          (firstAvailable plans (usageAt students plans k)
            s.preferredStreams)) := by
  rw [rankStudents_eq, allocate_getElem?, assignRanks_getElem?, Option.map_map]
  have hu : (fun n => (fun _ => 0 : String → Nat) n +
      countAssigned n ((allocate plans
        (assignRanks (List.insertionSort sortLE (students.map toProcessed)) 0)
        (fun _ => 0)).take k)) = usageAt students plans k := by
    funext n
    simp [usageAt, rankStudents_eq]
  rw [hu]
  congr 1
  funext s
  simp only [Function.comp_apply, setQS]
  congr 2
  omega

/-- A pair sitting at positions `i < j` of `l` is a two-element sublist. -/
theorem sublist_pair_of_getElem? {α : Type} (l : List α) (i j : Nat) (x y : α)
    (hij : i < j) (hx : l[i]? = some x) (hy : l[j]? = some y) :
    List.Sublist [x, y] l := by
  obtain ⟨hi, hxe⟩ := List.getElem?_eq_some_iff.mp hx
  obtain ⟨hj, hye⟩ := List.getElem?_eq_some_iff.mp hy
  have hps : List.Pairwise (fun a b : Fin l.length => a < b)
      [⟨i, hi⟩, ⟨j, hj⟩] := by
    simp [hij]
  have := List.map_getElem_sublist hps
  simpa [hxe, hye] using this

/-- Every output record's comparator key comes from some input student. -/
theorem mem_rankStudents_key (students : List Student) (plans : List StudyPlan)
    (s : RankedStudent) (hs : s ∈ rankStudents students plans) :
    ∃ t ∈ students, keyOf s = keyOf (toProcessed t) := by
  have hmem : keyOf s ∈ (rankStudents students plans).map keyOf :=
    List.mem_map_of_mem keyOf hs
  rw [rankStudents_eq, map_keyOf_allocate, map_keyOf_assignRanks] at hmem
  have hperm : List.Perm
      ((List.insertionSort sortLE (students.map toProcessed)).map keyOf)
      ((students.map toProcessed).map keyOf) :=
    (List.perm_insertionSort sortLE (students.map toProcessed)).map keyOf
  have hmem2 := hperm.mem_iff.mp hmem
  rw [List.map_map] at hmem2
  obtain ⟨t, ht, hkey⟩ := List.mem_map.mp hmem2
  exact ⟨t, ht, hkey.symm⟩

/-- Eligibility is decidable (used to discharge witnesses by `decide`). -/
instance (plans : List StudyPlan) (u : String → Nat) (x : String) :
    Decidable (eligible plans u x) :=
  match hq : planQuotas plans x with
  | some q =>
    decidable_of_iff ((u x : Int) < q)
      ⟨fun h => ⟨q, hq, h⟩, fun ⟨q', hq', h'⟩ => by
        rw [hq] at hq'
        exact Option.some.inj hq' ▸ h'⟩
  | none =>
    isFalse fun ⟨q', hq', _⟩ => by
      rw [hq] at hq'
      exact Option.noConfusion hq'

/-! ### Concrete sample inputs and outputs used by witnesses -/

def wA : Student := ⟨"A", "", "", "", ⟨80, 90, 10, 20, 30⟩, ["X"]⟩

def wB : Student := ⟨"B", "", "", "", ⟨70, 90, 10, 20, 30⟩, ["X"]⟩

def wStudents : List Student := [wB, wA]

def wPlans : List StudyPlan := [⟨"X", 1⟩]

def wOutA : RankedStudent :=
  ⟨"A", "", "", "", ⟨80, 90, 10, 20, 30⟩, ["X"], 230, 1, some "X"⟩

def wOutB : RankedStudent :=
  ⟨"B", "", "", "", ⟨70, 90, 10, 20, 30⟩, ["X"], 220, 2, none⟩

def cexA : Student := ⟨"A", "", "", "", ⟨1, 1, 1, 1, 1⟩, []⟩

def cexB : Student := ⟨"B", "", "", "", ⟨1, 1, 1, 1, 1⟩, []⟩

def cexC : Student := ⟨"C", "", "", "", ⟨1, 1, 1, 1, 1⟩, []⟩

def cexOutA : RankedStudent := ⟨"A", "", "", "", ⟨1, 1, 1, 1, 1⟩, [], 5, 1, none⟩

def cexOutC : RankedStudent := ⟨"C", "", "", "", ⟨1, 1, 1, 1, 1⟩, [], 5, 3, none⟩

def dupA : Student := ⟨"D", "", "", "", ⟨0, 0, 0, 0, 0⟩, ["X"]⟩

def dupPlans : List StudyPlan := [⟨"X", 0⟩, ⟨"X", 5⟩]

def nopeS : Student := ⟨"N", "", "", "", ⟨0, 0, 0, 0, 0⟩, ["NOPE"]⟩

/-! ### The claims -/

/-- C3: for every student in the output of `rankStudents`, `totalScore`
equals the arithmetic sum of the student's scores over all configured
subject keys (the five subjects fixed by the source; in this typed
embedding every subject key is present, a missing key contributing 0 is
not representable). -/
theorem totalScore_correct (students : List Student) (plans : List StudyPlan)
    (s : RankedStudent) (hs : s ∈ rankStudents students plans) :
    s.totalScore = s.scores.math + s.scores.science + s.scores.thai +
      s.scores.english + s.scores.social := by
  obtain ⟨t, -, hkey⟩ := mem_rankStudents_key students plans s hs
  simp only [keyOf, toProcessed, calculateTotal, Prod.mk.injEq] at hkey
  obtain ⟨h0, h1, h2, h3, h4, h5⟩ := hkey
  rw [h0, h1, h2, h3, h4, h5]

/-- C3 witness. -/
theorem totalScore_correct_witness :
    wOutA ∈ rankStudents wStudents wPlans ∧
    wOutA.totalScore = wOutA.scores.math + wOutA.scores.science +
      wOutA.scores.thai + wOutA.scores.english + wOutA.scores.social :=
  ⟨by decide, totalScore_correct wStudents wPlans wOutA (by decide)⟩

/-- C4: the output of `rankStudents` is ordered by the spec's pairwise
total order — `totalScore` descending, then the subject scores science,
math, english, thai, social, each descending in that fixed priority — and
the source comparator coincides with that order, which is total and
transitive. -/
theorem sort_order_correct (students : List Student) (plans : List StudyPlan) :
    (rankStudents students plans).Pairwise specLE ∧
    (∀ a b : RankedStudent, sortLE a b ↔ specLE a b) ∧
    (∀ a b : RankedStudent, specLE a b ∨ specLE b a) ∧
    (∀ a b c : RankedStudent, specLE a b → specLE b c → specLE a c) := by
  refine ⟨?_, sortLE_iff_specLE, specLE_total, specLE_trans⟩
  have hsorted : (List.insertionSort sortLE (students.map toProcessed)).Pairwise
      specLE :=
    (List.sorted_insertionSort sortLE (students.map toProcessed)).imp
      fun hab => (sortLE_iff_specLE _ _).mp hab
  have h1 : ((List.insertionSort sortLE (students.map toProcessed)).map
      keyOf).Pairwise keyLE := List.pairwise_map.mpr hsorted
  have h2 : (rankStudents students plans).map keyOf =
      (List.insertionSort sortLE (students.map toProcessed)).map keyOf := by
    rw [rankStudents_eq, map_keyOf_allocate, map_keyOf_assignRanks]
  rw [← h2] at h1
  exact (@List.pairwise_map RankedStudent (Int × Int × Int × Int × Int × Int)
    keyOf keyLE (rankStudents students plans)).mp h1

/-- C4 witness. -/
theorem sort_order_correct_witness :
    specLE wOutA wOutB ∧ specLE wOutB wOutB ∧ specLE wOutA wOutB :=
  ⟨by decide, by decide,
    (sort_order_correct wStudents wPlans).2.2.2 wOutA wOutB wOutB
      (by decide) (by decide)⟩

/-- C5: the ranks in the output of `rankStudents` are exactly
`[1, …, N]` in ascending order (`List.range' 1 N`), so they form a
permutation of `{1, …, N}`, rank is the 1-based position, ties get
distinct consecutive numbers, and the empty input gives empty output. -/
theorem rank_permutation (students : List Student) (plans : List StudyPlan) :
    (rankStudents students plans).map (fun s => s.rank) =
      List.range' 1 students.length ∧
    (rankStudents students plans).length = students.length ∧
    (students = [] → rankStudents students plans = []) :=
  ⟨map_rank_rankStudents students plans, length_rankStudents students plans,
    fun h => by rw [h]; rfl⟩

/-- C5 witness. -/
theorem rank_permutation_witness :
    ([] : List Student) = [] ∧ rankStudents [] wPlans = [] :=
  ⟨rfl, (rank_permutation [] wPlans).2.2 rfl⟩

/-- C9: `rankStudents` derives a fresh collection: stripping the derived
annotations from the output gives back exactly the input students (as a
permutation), and the allocation stage rewrites only `qualifiedStream`,
carrying every other field through unchanged, position by position.
(Heap mutation is not representable in this pure embedding; the embedding
itself is a pure function of its inputs.) -/
theorem no_mutation_frame (students : List Student) (plans : List StudyPlan) :
    List.Perm ((rankStudents students plans).map strip) students ∧
    (∀ (l : List RankedStudent) (u : String → Nat),
      (allocate plans l u).map clearQS = l.map clearQS) := by
  constructor
  · have h1 : (rankStudents students plans).map strip =
        (List.insertionSort sortLE (students.map toProcessed)).map strip := by
      rw [rankStudents_eq, map_strip_allocate, map_strip_assignRanks]
    have h2 : List.Perm
        ((List.insertionSort sortLE (students.map toProcessed)).map strip)
        ((students.map toProcessed).map strip) :=
      (List.perm_insertionSort sortLE (students.map toProcessed)).map strip
    rw [h1]
    refine h2.trans ?_
    rw [List.map_map]
    have : strip ∘ toProcessed = id := by
      funext s
      rfl
    rw [this, List.map_id]
  · intro l u
    induction l generalizing u with
    | nil => rfl
    | cons s rest ih =>
      cases hfa : firstAvailable plans u s.preferredStreams with
      | some name =>
        rw [allocate_cons_some plans s rest u name hfa]
        simp [clearQS, ih]
      | none =>
        rw [allocate_cons_none plans s rest u hfa]
        simp [clearQS, ih]

/-- C1 counterexample: with two track entries sharing the name "X" (quotas
0 and 5, both ≥ 0), a student is assigned "X", so the count for the
quota-0 entry exceeds its capacity — the claim fails as stated for
arbitrary plan lists. -/
theorem capacity_invariant_cex :
    (∀ p ∈ dupPlans, 0 ≤ p.quota) ∧
    (⟨"X", 0⟩ : StudyPlan) ∈ dupPlans ∧
    ¬ ((countAssigned "X" (rankStudents [dupA] dupPlans) : Int) ≤
      (⟨"X", 0⟩ : StudyPlan).quota) := by
  refine ⟨by decide, by decide, by decide⟩

/-- C1 (amended): when track names are pairwise distinct (the data model's
uniqueness precondition) and capacities are ≥ 0, the number of students
assigned to each track is at most its quota; in particular a quota-0 track
is never assigned. -/
theorem capacity_invariant (students : List Student) (plans : List StudyPlan)
    (hq : ∀ p ∈ plans, 0 ≤ p.quota)
    (hnd : plans.Pairwise (fun p r => p.name ≠ r.name)) :
    ∀ p ∈ plans,
      ((countAssigned p.name (rankStudents students plans) : Int) ≤ p.quota) ∧
      (p.quota = 0 → ∀ s ∈ rankStudents students plans,
        s.qualifiedStream ≠ some p.name) := by
  intro p hp
  have hquota := planQuotas_of_nodup plans hnd p hp
  have hcount := countAssigned_allocate_le plans p.name p.quota hquota
    (assignRanks (List.insertionSort sortLE (students.map toProcessed)) 0)
    (fun _ => 0)
  rw [← rankStudents_eq] at hcount
  have hq' := hq p hp
  constructor
  · simp only [Nat.cast_zero, sub_zero] at hcount
    omega
  · intro h0 s hs hqs
    have hpos : 0 < countAssigned p.name (rankStudents students plans) :=
      List.countP_pos_iff.mpr ⟨s, hs, by simp [hqs]⟩
    simp only [Nat.cast_zero, sub_zero] at hcount
    omega

/-- C1 witness (for the amended theorem). -/
theorem capacity_invariant_witness :
    (∀ p ∈ wPlans, 0 ≤ p.quota) ∧
    wPlans.Pairwise (fun p r => p.name ≠ r.name) ∧
    (⟨"X", 1⟩ : StudyPlan) ∈ wPlans ∧
    (((countAssigned (⟨"X", 1⟩ : StudyPlan).name
        (rankStudents wStudents wPlans) : Int) ≤
        (⟨"X", 1⟩ : StudyPlan).quota) ∧
      ((⟨"X", 1⟩ : StudyPlan).quota = 0 → ∀ s ∈ rankStudents wStudents wPlans,
        s.qualifiedStream ≠ some (⟨"X", 1⟩ : StudyPlan).name)) :=
  ⟨by decide, by decide, by decide,
    capacity_invariant wStudents wPlans (by decide) (by decide)
      ⟨"X", 1⟩ (by decide)⟩

/-- C10: when the plan list contains several entries with the same name,
the entry found last in the list (first in the reversed list) governs: its
quota is the one recorded in `planQuotas`, and the total number of
students assigned to that name is bounded by that quota (floored at 0) —
a single shared usage counter applies to the name. -/
theorem duplicate_plans_last_quota (students : List Student)
    (plans : List StudyPlan) (n : String) (p : StudyPlan)
    (hfind : plans.reverse.find? (fun r => r.name == n) = some p) :
    planQuotas plans n = some p.quota ∧
    (countAssigned n (rankStudents students plans) : Int) ≤ max p.quota 0 := by
  have h1 : planQuotas plans n = some p.quota := by
    rw [planQuotas_eq_find_reverse, hfind]
    rfl
  refine ⟨h1, ?_⟩
  have hcount := countAssigned_allocate_le plans n p.quota h1
    (assignRanks (List.insertionSort sortLE (students.map toProcessed)) 0)
    (fun _ => 0)
  rw [← rankStudents_eq] at hcount
  simpa using hcount

/-- C10 witness: duplicate entries for "X" with quotas 0 then 5; the
last-listed quota 5 governs and the single assigned student respects it. -/
theorem duplicate_plans_last_quota_witness :
    dupPlans.reverse.find? (fun r => r.name == "X") =
      some (⟨"X", 5⟩ : StudyPlan) ∧
    (planQuotas dupPlans "X" = some (⟨"X", 5⟩ : StudyPlan).quota ∧
      (countAssigned "X" (rankStudents [dupA] dupPlans) : Int) ≤
        max (⟨"X", 5⟩ : StudyPlan).quota 0) :=
  ⟨by decide,
    duplicate_plans_last_quota [dupA] dupPlans "X" ⟨"X", 5⟩ (by decide)⟩

def nopeOut : RankedStudent :=
  ⟨"N", "", "", "", ⟨0, 0, 0, 0, 0⟩, ["NOPE"], 0, 1, none⟩

/-- C6: a student's assigned `qualifiedStream` is an element of their own
`preferredStreams`, and it is the first preference (in the student's
stated order) that names a configured track with remaining capacity in the
usage state at the moment that student is processed. -/
theorem qualified_first_eligible (students : List Student)
    (plans : List StudyPlan) (k : Nat) (s : RankedStudent) (t : String)
    (hs : (rankStudents students plans)[k]? = some s)
    (ht : s.qualifiedStream = some t) :
    t ∈ s.preferredStreams ∧
    ∃ pre post, s.preferredStreams = pre ++ t :: post ∧
      eligible plans (usageAt students plans k) t ∧
      ∀ x ∈ pre, ¬ eligible plans (usageAt students plans k) x := by
  rw [rankStudents_getElem?] at hs
  cases hx : (List.insertionSort sortLE (students.map toProcessed))[k]? with
  | none =>
    rw [hx] at hs
    exact Option.noConfusion hs
  | some x =>
    rw [hx] at hs
    have hxs := Option.some.inj hs
    subst hxs
    have hfa : firstAvailable plans (usageAt students plans k)
        x.preferredStreams = some t := ht
    obtain ⟨pre, post, hsplit, helig, hpre⟩ :=
      firstAvailable_some plans (usageAt students plans k)
        x.preferredStreams t hfa
    have hprefs : (setQS { x with rank := k + 1 }
        (firstAvailable plans (usageAt students plans k)
          x.preferredStreams)).preferredStreams = x.preferredStreams := rfl
    constructor
    · rw [hprefs, hsplit]
      simp
    · exact ⟨pre, post, by rw [hprefs]; exact hsplit, helig, hpre⟩

/-- C6 witness. -/
theorem qualified_first_eligible_witness :
    (rankStudents wStudents wPlans)[0]? = some wOutA ∧
    wOutA.qualifiedStream = some "X" ∧
    ("X" ∈ wOutA.preferredStreams ∧
      ∃ pre post, wOutA.preferredStreams = pre ++ "X" :: post ∧
        eligible wPlans (usageAt wStudents wPlans 0) "X" ∧
        ∀ x ∈ pre, ¬ eligible wPlans (usageAt wStudents wPlans 0) x) :=
  ⟨by decide, by decide,
    qualified_first_eligible wStudents wPlans 0 wOutA "X"
      (by decide) (by decide)⟩

/-- C8: malformed preferences never fault: a preference naming no
configured track is skipped exactly as if it were absent (and consumes no
capacity, since only an assignment increments usage), and a student none
of whose preferences is eligible — list empty, exhausted, only unknown or
only full tracks — ends with `qualifiedStream = none`, regardless of
capacity elsewhere. -/
theorem malformed_preferences (students : List Student)
    (plans : List StudyPlan) :
    (∀ (u : String → Nat) (x : String) (rest : List String),
        planQuotas plans x = none →
        firstAvailable plans u (x :: rest) = firstAvailable plans u rest) ∧
    (∀ (k : Nat) (s : RankedStudent),
        (rankStudents students plans)[k]? = some s →
        (∀ x ∈ s.preferredStreams,
          ¬ eligible plans (usageAt students plans k) x) →
        s.qualifiedStream = none) := by
  constructor
  · intro u x rest hq
    exact firstAvailable_cons_none plans u x rest hq
  · intro k s hs hall
    rw [rankStudents_getElem?] at hs
    cases hx : (List.insertionSort sortLE (students.map toProcessed))[k]? with
    | none =>
      rw [hx] at hs
      exact Option.noConfusion hs
    | some x =>
      rw [hx] at hs
      have hxs := Option.some.inj hs
      subst hxs
      show firstAvailable plans (usageAt students plans k)
        x.preferredStreams = none
      exact firstAvailable_none plans (usageAt students plans k)
        x.preferredStreams fun y hy => hall y hy

/-- C8 witness: the single preference "NOPE" names no configured track; it
is skipped and the student stays unassigned although track "X" has free
capacity. -/
theorem malformed_preferences_witness :
    planQuotas wPlans "NOPE" = none ∧
    firstAvailable wPlans (fun _ => 0) ["NOPE"] =
      firstAvailable wPlans (fun _ => 0) [] ∧
    (rankStudents [nopeS] wPlans)[0]? = some nopeOut ∧
    (∀ x ∈ nopeOut.preferredStreams,
      ¬ eligible wPlans (usageAt [nopeS] wPlans 0) x) ∧
    nopeOut.qualifiedStream = none :=
  ⟨by decide,
    (malformed_preferences [nopeS] wPlans).1 (fun _ => 0) "NOPE" []
      (by decide),
    by decide, by decide,
    (malformed_preferences [nopeS] wPlans).2 0 nopeOut (by decide)
      (by decide)⟩

/-- C2: if two output students A and B with A ranked better (smaller rank
number) share the same first preference `t`, `t` is configured with quota
1, and no student ranked above A is assigned `t`, then A receives `t` and
B does not: capacity contention is resolved in favor of the higher-ranked
student. -/
theorem monotonic_fairness (students : List Student) (plans : List StudyPlan)
    (A B : RankedStudent) (t : String)
    (hA : A ∈ rankStudents students plans)
    (hB : B ∈ rankStudents students plans)
    (hrank : A.rank < B.rank)
    (hApref : A.preferredStreams.head? = some t)
    (hBpref : B.preferredStreams.head? = some t)
    (hcap : planQuotas plans t = some 1)
    (htop : ∀ C ∈ rankStudents students plans, C.rank < A.rank →
        C.qualifiedStream ≠ some t) :
    A.qualifiedStream = some t ∧ B.qualifiedStream ≠ some t := by
  obtain ⟨i, hiA⟩ := List.mem_iff_getElem?.mp hA
  obtain ⟨j, hjB⟩ := List.mem_iff_getElem?.mp hB
  have hrA : A.rank = i + 1 := rank_rankStudents students plans i A hiA
  have hrB : B.rank = j + 1 := rank_rankStudents students plans j B hjB
  have hij : i < j := by omega
  -- nobody processed before A holds `t`, so its usage counter is still 0
  have husagei : usageAt students plans i t = 0 := by
    apply List.countP_eq_zero.mpr
    intro c hc
    obtain ⟨m, hm⟩ := List.mem_iff_getElem?.mp hc
    rw [List.getElem?_take] at hm
    by_cases hmi : m < i
    · rw [if_pos hmi] at hm
      have hcr : c.rank = m + 1 := rank_rankStudents students plans m c hm
      obtain ⟨hmlt, hme⟩ := List.getElem?_eq_some_iff.mp hm
      have hcmem : c ∈ rankStudents students plans := by
        rw [← hme]
        exact List.getElem_mem hmlt
      have hne := htop c hcmem (by omega)
      simpa using hne
    · rw [if_neg hmi] at hm
      exact Option.noConfusion hm
  -- A's first preference is eligible, so A is assigned `t`
  have hiA' := hiA
  rw [rankStudents_getElem?] at hiA'
  have hAq : A.qualifiedStream = some t := by
    cases hx : (List.insertionSort sortLE (students.map toProcessed))[i]? with
    | none =>
      rw [hx] at hiA'
      exact Option.noConfusion hiA'
    | some xA =>
      rw [hx] at hiA'
      have hxs := Option.some.inj hiA'
      subst hxs
      show firstAvailable plans (usageAt students plans i)
        xA.preferredStreams = some t
      have hps : xA.preferredStreams = t :: xA.preferredStreams.tail := by
        have : xA.preferredStreams.head? = some t := hApref
        cases hpl : xA.preferredStreams with
        | nil =>
          rw [hpl] at this
          exact Option.noConfusion this
        | cons h tl =>
          rw [hpl] at this
          have := Option.some.inj this
          simp [this]
      rw [hps]
      apply firstAvailable_head plans (usageAt students plans i)
        t xA.preferredStreams.tail 1 hcap
      rw [husagei]
      norm_num
  refine ⟨hAq, ?_⟩
  -- by B's turn the usage counter of `t` is already at its quota 1
  have husagej : 0 < usageAt students plans j t := by
    apply List.countP_pos_iff.mpr
    refine ⟨A, ?_, by simp [hAq]⟩
    have htake : ((rankStudents students plans).take j)[i]? = some A := by
      rw [List.getElem?_take, if_pos hij]
      exact hiA
    obtain ⟨hmlt, hme⟩ := List.getElem?_eq_some_iff.mp htake
    rw [← hme]
    exact List.getElem_mem hmlt
  have hjB' := hjB
  rw [rankStudents_getElem?] at hjB'
  cases hx : (List.insertionSort sortLE (students.map toProcessed))[j]? with
  | none =>
    rw [hx] at hjB'
    exact Option.noConfusion hjB'
  | some xB =>
    rw [hx] at hjB'
    have hxs := Option.some.inj hjB'
    subst hxs
    intro hBq
    have hfa : firstAvailable plans (usageAt students plans j)
        xB.preferredStreams = some t := hBq
    obtain ⟨q, hq, hlt⟩ := firstAvailable_eligible plans
      (usageAt students plans j) xB.preferredStreams t hfa
    rw [hcap] at hq
    have hq1 := Option.some.inj hq
    omega

/-- C2 witness: two students both listing only "X" (quota 1); the
higher-ranked A gets it, B does not. -/
theorem monotonic_fairness_witness :
    wOutA ∈ rankStudents wStudents wPlans ∧
    wOutB ∈ rankStudents wStudents wPlans ∧
    wOutA.rank < wOutB.rank ∧
    wOutA.preferredStreams.head? = some "X" ∧
    wOutB.preferredStreams.head? = some "X" ∧
    planQuotas wPlans "X" = some 1 ∧
    (∀ C ∈ rankStudents wStudents wPlans, C.rank < wOutA.rank →
      C.qualifiedStream ≠ some "X") ∧
    (wOutA.qualifiedStream = some "X" ∧ wOutB.qualifiedStream ≠ some "X") :=
  ⟨by decide, by decide, by decide, by decide, by decide, by decide,
    by decide,
    monotonic_fairness wStudents wPlans wOutA wOutB "X" (by decide)
      (by decide) (by decide) (by decide) (by decide) (by decide)
      (by decide)⟩

/-- C7 counterexample: three students with identical scores on every
subject.  The tied pair (cexA, cexC) appears in the input in this order
and receives ranks 1 and 3 — distinct, in original order, but NOT
consecutive (a third tied student sits between them), refuting the
claim's "distinct consecutive ranks" for arbitrary tied pairs. -/
theorem stable_tie_cex :
    cexA.scores = cexC.scores ∧
    List.Sublist [cexA, cexC] [cexA, cexB, cexC] ∧
    rankStudents [cexA, cexB, cexC] [] =
      [cexOutA, ⟨"B", "", "", "", ⟨1, 1, 1, 1, 1⟩, [], 5, 2, none⟩,
        cexOutC] ∧
    strip cexOutA = cexA ∧ strip cexOutC = cexC ∧
    cexOutA.rank = 1 ∧ cexOutC.rank = 3 ∧
    cexOutC.rank ≠ cexOutA.rank + 1 ∧ cexOutA.rank ≠ cexOutC.rank + 1 := by
  refine ⟨by decide, by decide, by decide, by decide, by decide, by decide,
    by decide, by decide, by decide⟩

/-- C7 (amended): a tied pair (equal scores on every subject, hence equal
totals) keeps its original relative input order in the output — the
better-placed copy gets the strictly smaller rank (distinct ranks, though
not necessarily consecutive when another tied student lies between) — and
the computation is a pure function of the input, hence reproducible. -/
theorem stable_tie_order (students : List Student) (plans : List StudyPlan)
    (a b : Student) (hsub : List.Sublist [a, b] students)
    (htie : a.scores = b.scores) :
    (∃ A B, List.Sublist [A, B] (rankStudents students plans) ∧
      strip A = a ∧ strip B = b ∧ A.rank < B.rank) ∧
    rankStudents students plans = rankStudents students plans := by
  refine ⟨?_, rfl⟩
  have hkey : keyOf (toProcessed a) = keyOf (toProcessed b) := by
    simp [keyOf, toProcessed, calculateTotal, htie]
  have hle : sortLE (toProcessed a) (toProcessed b) := sortLE_of_key_eq hkey
  have hsub' : List.Sublist [toProcessed a, toProcessed b]
      (students.map toProcessed) := by
    have := hsub.map toProcessed
    simpa using this
  have hpair := List.pair_sublist_insertionSort hle hsub'
  obtain ⟨is, heq, hps⟩ := List.sublist_eq_map_getElem hpair
  cases is with
  | nil => exact absurd heq (by simp)
  | cons i is' =>
    cases is' with
    | nil => exact absurd heq (by simp)
    | cons j is'' =>
      cases is'' with
      | cons k is''' => exact absurd heq (by simp)
      | nil =>
        simp only [List.map_cons, List.map_nil, List.cons.injEq,
          and_true] at heq
        obtain ⟨h1, h2⟩ := heq
        simp only [Fin.getElem_fin] at h1 h2
        have hij : (i : Nat) < (j : Nat) := by
          simp only [List.pairwise_cons, List.mem_cons, List.mem_singleton,
            List.not_mem_nil] at hps
          exact hps.1 j (Or.inl rfl)
        have hAel : (rankStudents students plans)[(i : Nat)]? =
            some (setQS { toProcessed a with rank := (i : Nat) + 1 }
              (firstAvailable plans (usageAt students plans (i : Nat))
                (toProcessed a).preferredStreams)) := by
          rw [rankStudents_getElem?, List.getElem?_eq_getElem i.isLt, ← h1]
          rfl
        have hBel : (rankStudents students plans)[(j : Nat)]? =
            some (setQS { toProcessed b with rank := (j : Nat) + 1 }
              (firstAvailable plans (usageAt students plans (j : Nat))
                (toProcessed b).preferredStreams)) := by
          rw [rankStudents_getElem?, List.getElem?_eq_getElem j.isLt, ← h2]
          rfl
        refine ⟨_, _, sublist_pair_of_getElem? (rankStudents students plans)
          (i : Nat) (j : Nat) _ _ hij hAel hBel, rfl, rfl, ?_⟩
        show (i : Nat) + 1 < (j : Nat) + 1
        omega

/-- C7 witness (for the amended theorem). -/
theorem stable_tie_order_witness :
    List.Sublist [cexA, cexC] [cexA, cexB, cexC] ∧
    cexA.scores = cexC.scores ∧
    ((∃ A B, List.Sublist [A, B] (rankStudents [cexA, cexB, cexC] []) ∧
        strip A = cexA ∧ strip B = cexC ∧ A.rank < B.rank) ∧
      rankStudents [cexA, cexB, cexC] [] =
        rankStudents [cexA, cexB, cexC] []) :=
  ⟨by decide, by decide,
    stable_tie_order [cexA, cexB, cexC] [] cexA cexC (by decide)
      (by decide)⟩

end NPSS
